import Mathlib

/-!
Verification of the Poseidon Merkle tree accumulator and its proof service.

The development shallowly embeds the JavaScript implementation
(`PoseidonMerkleTree`): the Poseidon hash primitive is kept opaque as a
function `H : Nat → Nat → Nat` (the implementation only ever hashes pairs,
and the field encoding `F.e` / decimal `F.toString` round-trips are absorbed
into `H`), hash values and balances are `Nat`, JavaScript `undefined` becomes
`Option.none`, and a thrown `TypeError` becomes `Except.error`.
-/

set_option maxRecDepth 10000

namespace ZkpMerkle

section Model

variable {α β : Type}

/-- Big-endian byte-to-integer packing: the loop
`num = (num << 8n) + BigInt(bytes[i])` over the byte sequence. -/
def packBytes (l : List Nat) : Nat := l.foldl (fun n b => n * 256 + b) 0

/-- The UTF-8 bytes of an identifier string, as `Buffer.from(uid, 'utf8')`
produces them. -/
def uidBytes (s : String) : List Nat := s.toUTF8.data.toList.map (fun b => b.toNat)

/-- The helper `uidToFieldElement`: packs the UTF-8 bytes of the identifier big-endian
into one integer. The JavaScript helper returns its decimal string; we keep
the integer itself (the decimal representation is faithful to it). The same
packing loop is inlined in `hashLeaf`. -/
def uidToFieldElement (s : String) : Nat := packBytes (uidBytes s)

variable (H : Nat → Nat → Nat)

/-- The method `hashLeaf(uid, balance)`: hashes the packed identifier together with the
balance. -/
def hashLeaf (uid : String) (balance : Nat) : Nat := H (uidToFieldElement uid) balance

/-- A tree node as `buildTree` creates it: layer 0 nodes carry
`{hash, uid, balance}`, nodes of the upper layers carry `{hash, left, right}`. -/
inductive Node where
  | leaf (h : Nat) (uid : String) (balance : Nat)
  | inner (h : Nat) (left right : Node)
deriving DecidableEq

/-- The `hash` field of a node. -/
def Node.hashVal : Node → Nat
  | .leaf h _ _ => h
  | .inner h _ _ => h

/-- The `uid` field of a node; reading it on an upper-layer node gives
`undefined`, modelled as `none`. -/
def Node.uidVal : Node → Option String
  | .leaf _ u _ => some u
  | .inner _ _ _ => none

/-- The `balance` field of a node, `undefined` on upper-layer nodes. -/
def Node.balVal : Node → Option Nat
  | .leaf _ _ b => some b
  | .inner _ _ _ => none

/-- Layer 0 of `buildTree`: one leaf node per entry, in input order. -/
def leafLayer (entries : List (String × Nat)) : List Node :=
  entries.map fun e => Node.leaf (hashLeaf H e.1 e.2) e.1 e.2

/-- One combining pass of the `buildTree` loop (`for i += 2`): adjacent nodes
are paired left to right; a trailing lone node falls back to itself via
`right = currentLayer[i + 1] || left`. -/
def combine : List Node → List Node
  | [] => []
  | [lone] => [Node.inner (H lone.hashVal lone.hashVal) lone lone]
  | l :: r :: rest => Node.inner (H l.hashVal r.hashVal) l r :: combine rest

/-- The `while (currentLayer.length > 1)` loop of `buildTree`, pushing the
current layer first and then every combined layer. The recursion is given
explicit fuel so that it is structural and concrete trees evaluate in the
kernel; fuel equal to the initial layer length always suffices. -/
def buildLayersAux : Nat → List Node → List (List Node)
  | 0, cur => [cur]
  | fuel + 1, cur =>
      if 1 < cur.length then cur :: buildLayersAux fuel (combine H cur) else [cur]

/-- The method `buildTree(entries)`: the full list of layers, from the leaf layer up to
the single-node top layer (for a nonempty input). -/
def buildTree (entries : List (String × Nat)) : List (List Node) :=
  buildLayersAux H (leafLayer H entries).length (leafLayer H entries)

/-- The method `getRoot()`, generically over the node representation: `null` when there
are no layers, otherwise `layers[layers.length - 1][0].hash`; the access on an
empty top layer (possible only for the degenerate empty build) yields no hash. -/
def getRootG (hashOf : α → Nat) (layers : List (List α)) : Option Nat :=
  match layers.getLast? with
  | none => none
  | some top => (top.get? 0).map hashOf

/-- The method `getRoot()` on a freshly built tree. -/
def getRoot (layers : List (List Node)) : Option Nat := getRootG Node.hashVal layers

/-- The method `computeFinalRoot()`: `hash([root, timestamp])`, guarded by
`if (!merkleRoot || !this.timestamp) return null` — a timestamp of `0` is
falsy in JavaScript, hence the extra guard. -/
def computeFinalRoot (layers : List (List Node)) (timestamp : Nat) : Option Nat :=
  match getRoot layers with
  | none => none
  | some r => if timestamp = 0 then none else some (H r timestamp)

/-- Which side of the combined pair the recorded sibling occupies. -/
inductive Side where
  | left
  | right
deriving DecidableEq

/-- One element of a membership proof: `{hash, position}`. -/
structure ProofElem where
  hash : Nat
  position : Side
deriving DecidableEq

/-- The duck-typed node interface that proof extraction relies on: the code
reads only `node.hash`, `node.uid` and `node.balance`, so it runs both on the
rich nodes of a fresh build and on the plain objects restored from JSON. -/
structure NodeView (α : Type) where
  hashOf : α → Nat
  uidOf : α → Option String
  balOf : α → Option Nat

/-- One iteration of the proof loop at a given layer and node index: sibling
index `i + 1` (even `i`, sibling on the right) or `i - 1` (odd `i`, sibling on
the left); nothing is recorded when `siblingIndex < currentLayer.length`
fails. -/
def siblingAt (V : NodeView α) (layer : List α) (i : Nat) : Option ProofElem :=
  let isLeftNode := i % 2 == 0
  let siblingIndex := if isLeftNode then i + 1 else i - 1
  match layer.get? siblingIndex with
  | some sib => some ⟨V.hashOf sib, if isLeftNode then Side.right else Side.left⟩
  | none => none

/-- The proof loop over layers `0 .. layers.length - 2`, halving the node
index after each layer (`nodeIndex = Math.floor(nodeIndex / 2)`). -/
def pathAux (V : NodeView α) : List (List α) → Nat → List ProofElem
  | [], _ => []
  | layer :: rest, i =>
      match siblingAt V layer i with
      | some pe => pe :: pathAux V rest (i / 2)
      | none => pathAux V rest (i / 2)

/-- The sibling path recorded by `getProofFromStoredData`, starting from node
index `i` in layer 0. The loop stops before the root layer. -/
def getProofPath (V : NodeView α) (layers : List (List α)) (i : Nat) : List ProofElem :=
  pathAux V layers.dropLast i

/-- The object returned by `getProofFromStoredData`. -/
structure ProofData where
  uid : String
  balance : Option Nat
  leafHash : Nat
  proof : List ProofElem
  merkleRoot : Option Nat
  timestamp : Nat
  finalRoot : Option Nat
deriving DecidableEq

/-- The method `getProofFromStoredData(uid)`: find the first layer-0 node whose `uid`
field equals the argument (`findIndex`), walk the layers collecting sibling
hashes, and package the proof. `null` is returned when the identifier is
absent; an unbuilt tree (no layers at all) produces no proof either. -/
def getProofFromStoredData (V : NodeView α) (layers : List (List α))
    (timestamp : Nat) (finalRoot : Option Nat) (uid : String) : Option ProofData :=
  match layers with
  | [] => none
  | layer0 :: _ =>
    match layer0.findIdx? (fun n => V.uidOf n == some uid) with
    | none => none
    | some nodeIndex =>
      (layer0.get? nodeIndex).map fun currentNode =>
        { uid := uid
          balance := V.balOf currentNode
          leafHash := V.hashOf currentNode
          proof := getProofPath V layers nodeIndex
          merkleRoot := getRootG V.hashOf layers
          timestamp := timestamp
          finalRoot := finalRoot }

/-- The thrown-exception outcomes of `verifyProof`: `BigInt(undefined)`
raises a `TypeError`. -/
inductive JsError where
  | typeError
deriving DecidableEq

/-- The structured verdict `verifyProof` returns. -/
structure Verdict where
  merklePathValid : Bool
  finalRootValid : Bool
  overallValid : Bool
deriving DecidableEq

/-- The `proof` argument of `verifyProof` as one JavaScript value: iterating
it (`for .. of`) yields the path elements, and the code additionally reads the
properties `merkleRoot`, `timestamp` and `finalRoot` off it. The bare path
array produced by extraction has those three properties `undefined`. -/
structure VerifyInput where
  elems : List ProofElem
  merkleRoot : Option Nat
  timestamp : Option Nat
  finalRoot : Option Nat
deriving DecidableEq

/-- One combining step of the verification walk. -/
def combineStep (acc : Nat) (pe : ProofElem) : Nat :=
  match pe.position with
  | .left => H pe.hash acc
  | .right => H acc pe.hash

/-- The verification walk: fold the path elements in order over the leaf
hash. -/
def foldPath (leafHash : Nat) (elems : List ProofElem) : Nat :=
  elems.foldl (combineStep H) leafHash

/-- The method `verifyProof(uid, balance, proof, root)`. The final parameter `root` is
unused, exactly as in the source. After the walk the code compares against
`proof.merkleRoot`, then evaluates `BigInt(proof.merkleRoot)` and
`BigInt(proof.timestamp)` — which throws when either property is
`undefined` — and finally compares `hash([merkleRoot, timestamp])` against
`proof.finalRoot`. -/
def verifyProof (uid : String) (balance : Nat) (p : VerifyInput)
    (rootArg : Option Nat) : Except JsError Verdict :=
  let computedHash := foldPath H (hashLeaf H uid balance) p.elems
  let merklePathValid := p.merkleRoot == some computedHash
  match p.merkleRoot, p.timestamp with
  | some mr, some ts =>
      let finalRootValid := p.finalRoot == some (H mr ts)
      Except.ok ⟨merklePathValid, finalRootValid, merklePathValid && finalRootValid⟩
  | _, _ => Except.error JsError.typeError

/-- The per-node record stored by `exportToJSON`: only `hash`, `uid` and
`balance` survive serialization; the transient `left`/`right` child pointers
are dropped. -/
structure StoredNode where
  hash : Nat
  uid : Option String
  balance : Option Nat
deriving DecidableEq

/-- The node-to-snapshot projection performed inside `exportToJSON`. -/
def storeNode (n : Node) : StoredNode := ⟨n.hashVal, n.uidVal, n.balVal⟩

/-- The snapshot object written by `exportToJSON`. -/
structure Snapshot where
  merkleRoot : Option Nat
  timestamp : Nat
  finalRoot : Option Nat
  leaves : List (String × Nat)
  layers : List (List StoredNode)
  hashFunction : String
deriving DecidableEq

/-- The method `exportToJSON()` of a tree with the given fields. -/
def exportToJSON (leaves : List (String × Nat)) (layers : List (List Node))
    (timestamp : Nat) (finalRoot : Option Nat) : Snapshot :=
  { merkleRoot := getRoot layers
    timestamp := timestamp
    finalRoot := finalRoot
    leaves := leaves
    layers := layers.map fun layer => layer.map storeNode
    hashFunction := "poseidon" }

/-- The tree state after `initFromJSON`: the snapshot's data copied verbatim. -/
structure RestoredTree where
  leaves : List (String × Nat)
  layers : List (List StoredNode)
  timestamp : Nat
  finalRoot : Option Nat
deriving DecidableEq

/-- The method `initFromJSON(jsonData)`. -/
def initFromJSON (s : Snapshot) : RestoredTree :=
  { leaves := s.leaves, layers := s.layers, timestamp := s.timestamp, finalRoot := s.finalRoot }

/-- The accessor view of freshly built nodes. -/
def nodeView : NodeView Node := ⟨Node.hashVal, Node.uidVal, Node.balVal⟩

/-- The accessor view of restored snapshot nodes. -/
def storedView : NodeView StoredNode := ⟨StoredNode.hash, StoredNode.uid, StoredNode.balance⟩

/-- Spec-side verification walk, written exactly as the specification words
it: for each path element in order, a sibling recorded on the left gives
`Hash([siblingHash, computedHash])`, on the right
`Hash([computedHash, siblingHash])`. -/
def verifySpecWalk (cur : Nat) : List ProofElem → Nat
  | [] => cur
  | pe :: rest =>
      match pe.position with
      | .left => verifySpecWalk (H pe.hash cur) rest
      | .right => verifySpecWalk (H cur pe.hash) rest

/-- Spec-side verdict: path validity and freshness validity checked
independently, with `overallValid` their conjunction. -/
def verifySpecVerdict (uid : String) (balance : Nat) (elems : List ProofElem)
    (mr ts fr : Nat) : Verdict :=
  let walked := verifySpecWalk H (hashLeaf H uid balance) elems
  let pathOk := decide (walked = mr)
  let bindOk := decide (H mr ts = fr)
  ⟨pathOk, bindOk, pathOk && bindOk⟩

/-- Spec-side description of the sibling recorded while ascending past one
layer at node index `j`: the adjacent node, `j + 1` on the right for even
`j`, `j - 1` on the left for odd `j`, and nothing when that index is out of
range. -/
def specSibling (V : NodeView α) (layer : List α) (j : Nat) : Option ProofElem :=
  if j % 2 = 0 then (layer.get? (j + 1)).map fun sib => ⟨V.hashOf sib, Side.right⟩
  else (layer.get? (j - 1)).map fun sib => ⟨V.hashOf sib, Side.left⟩

end Model

/-! Concrete data used by evaluations and witnesses. `Nat.pair` stands in for
the opaque hash primitive: it is computable and injective, so it is a faithful
concrete instance of a collision-free two-input hash. -/

/-- A two-entry input set. -/
def egEntries : List (String × Nat) := [("1", 5000), ("2", 3000)]

/-- A build-time timestamp (epoch milliseconds). -/
def egTs : Nat := 1690000000000

/-- The layers of the two-entry tree under the concrete hash. -/
def egLayers : List (List Node) := buildTree Nat.pair egEntries

/-- The finalized root of the two-entry tree. -/
def egFinalRoot : Option Nat := computeFinalRoot Nat.pair egLayers egTs

/-- A single-entry input set. -/
def oneEntry : List (String × Nat) := [("1", 5000)]

/-- The layers of the single-entry tree. -/
def oneLayers : List (List Node) := buildTree Nat.pair oneEntry

/-- The finalized root of the single-entry tree. -/
def oneFinalRoot : Option Nat := computeFinalRoot Nat.pair oneLayers egTs

deriving instance DecidableEq for Except

/-- Boolean equality agrees with decidable propositional equality. -/
theorem beq_eq_decide (a b : Nat) : (a == b) = decide (a = b) := by
  by_cases h : a = b <;> simp [h]

/-- The verification walk written in specification order agrees with the
left fold the code performs. -/
theorem verifySpecWalk_eq_foldPath (H : Nat → Nat → Nat) :
    ∀ (elems : List ProofElem) (cur : Nat),
      verifySpecWalk H cur elems = foldPath H cur elems := by
  intro elems
  induction elems with
  | nil => intro cur; rfl
  | cons pe rest ih =>
      intro cur
      cases h : pe.position <;>
        simp [verifySpecWalk, foldPath, List.foldl_cons, combineStep, h, ih]

/-- C2: on any proof input carrying a path together with the `merkleRoot`,
`timestamp` and `finalRoot` fields, `verifyProof` recomputes the leaf hash,
folds the path elements in order (left sibling: `Hash([sibling, acc])`; right
sibling: `Hash([acc, sibling])`), checks the walked hash against the proof's
root, independently checks `Hash([root, timestamp])` against the proof's
final root, and returns both checks separately with `overallValid` their
conjunction. -/
theorem c2_verify_structure (H : Nat → Nat → Nat) (uid : String) (balance : Nat)
    (elems : List ProofElem) (mr ts fr : Nat) (rootArg : Option Nat) :
    verifyProof H uid balance ⟨elems, some mr, some ts, some fr⟩ rootArg =
      Except.ok (verifySpecVerdict H uid balance elems mr ts fr) := by
  simp only [verifyProof, verifySpecVerdict, verifySpecWalk_eq_foldPath]
  congr 1
  simp [eq_comm, beq_eq_decide]

/-- C4, counterexample: building from the empty entry list does not fail at
all — the embedded `buildTree` (whose source has no failure path and no
`EmptyInputError`) completes and returns a single empty layer, and `getRoot`
then produces no root hash. -/
theorem c4_counterexample :
    buildTree Nat.pair [] = [[]] ∧ getRoot (buildTree Nat.pair []) = none := by
  decide

/-- C4, amended: for every hash primitive, building from the empty entry list
completes without any error, yielding the degenerate layer list `[[]]`; no
root is produced for it (`getRoot` finds no node, which in the source is a
crash on an `undefined` access rather than a clean `EmptyInputError`). -/
theorem c4_empty_build (H : Nat → Nat → Nat) :
    buildTree H [] = [[]] ∧ getRoot (buildTree H []) = none :=
  ⟨rfl, rfl⟩

/-- C1: evaluating the code on a present identifier with its true balance.
The tree is built and finalized from two entries; the proof for "1" is
extracted and fed back to `verifyProof` exactly as the repository does it
(`verifyProof(proof.uid, proof.balance, proof.proof, proof.root)`): the third
argument is the bare path array, whose `merkleRoot`/`timestamp`/`finalRoot`
properties are `undefined`, so verification throws a `TypeError` instead of
reporting `merklePathValid = finalRootValid = true`. -/
theorem c1_verify_throws :
    (getProofFromStoredData nodeView egLayers egTs egFinalRoot "1").map
        (fun p => verifyProof Nat.pair p.uid (p.balance.getD 0)
          ⟨p.proof, none, none, none⟩ none) =
      some (Except.error JsError.typeError) := by
  decide

/-- C8: the single-entry tree. Its root is the leaf hash and the extracted
proof has an empty path (both as claimed), but verifying that proof the way
the repository wires it does not succeed: it throws a `TypeError`, because
the path array carries no `merkleRoot`/`timestamp` properties. -/
theorem c8_single_leaf :
    getRoot oneLayers = some (hashLeaf Nat.pair "1" 5000) ∧
    getProofFromStoredData nodeView oneLayers egTs oneFinalRoot "1" =
      some { uid := "1", balance := some 5000, leafHash := hashLeaf Nat.pair "1" 5000,
             proof := [], merkleRoot := some (hashLeaf Nat.pair "1" 5000),
             timestamp := egTs, finalRoot := oneFinalRoot } ∧
    verifyProof Nat.pair "1" 5000 ⟨[], none, none, none⟩ none =
      Except.error JsError.typeError := by
  decide

/-- A combining pass halves the layer length, rounding up (the lone trailing
node is kept, paired with itself). -/
theorem combine_length (H : Nat → Nat → Nat) :
    ∀ l : List Node, (combine H l).length = (l.length + 1) / 2
  | [] => rfl
  | [lone] => by simp [combine]
  | a :: b :: rest => by
      simp only [combine, List.length_cons, combine_length H rest]
      omega

/-- The layer list always starts with the layer the loop was entered with. -/
theorem buildLayersAux_head (H : Nat → Nat → Nat) (f : Nat) (l : List Node) :
    (buildLayersAux H f l).head? = some l := by
  cases f with
  | zero => rfl
  | succ f =>
      simp only [buildLayersAux]
      split <;> rfl

/-- The layer list is never empty. -/
theorem buildLayersAux_ne_nil (H : Nat → Nat → Nat) (f : Nat) (l : List Node) :
    buildLayersAux H f l ≠ [] := by
  intro h
  have := buildLayersAux_head H f l
  rw [h] at this
  exact Option.noConfusion this

/-- Each layer after the first is the combining pass applied to its
predecessor. -/
theorem buildLayersAux_succ (H : Nat → Nat → Nat) :
    ∀ (f : Nat) (l : List Node) (i : Nat) (la lb : List Node),
      (buildLayersAux H f l).get? i = some la →
      (buildLayersAux H f l).get? (i + 1) = some lb →
      lb = combine H la := by
  intro f
  induction f with
  | zero =>
      intro l i la lb _ h2
      rw [show buildLayersAux H 0 l = [l] from rfl] at h2
      simp [List.get?] at h2
  | succ f ih =>
      intro l i la lb h1 h2
      rw [buildLayersAux] at h1 h2
      by_cases hlen : 1 < l.length
      · rw [if_pos hlen] at h1 h2
        cases i with
        | zero =>
            have hla : l = la := by simpa using h1
            subst hla
            have h2' : (buildLayersAux H f (combine H l)).get? 0 = some lb := by
              simpa using h2
            have hh := buildLayersAux_head H f (combine H l)
            rw [← List.get?_zero, h2'] at hh
            exact Option.some.inj hh
        | succ i =>
            rw [List.get?_cons_succ] at h1 h2
            exact ih (combine H l) i la lb h1 h2
      · rw [if_neg hlen] at h2
        simp [List.get?] at h2

/-- With enough fuel (the initial layer length always is enough) the final
layer holds exactly one node. -/
theorem buildLayersAux_last (H : Nat → Nat → Nat) :
    ∀ (f : Nat) (l : List Node), 1 ≤ l.length → l.length ≤ f + 1 →
      ∃ top, (buildLayersAux H f l).getLast? = some top ∧ top.length = 1 := by
  intro f
  induction f with
  | zero =>
      intro l h1 h2
      refine ⟨l, rfl, ?_⟩
      omega
  | succ f ih =>
      intro l h1 h2
      rw [buildLayersAux]
      by_cases hlen : 1 < l.length
      · rw [if_pos hlen]
        have hc1 : 1 ≤ (combine H l).length := by rw [combine_length]; omega
        have hc2 : (combine H l).length ≤ f + 1 := by rw [combine_length]; omega
        obtain ⟨top, htop, hlen1⟩ := ih (combine H l) hc1 hc2
        refine ⟨top, ?_, hlen1⟩
        obtain ⟨x, xs, hx⟩ : ∃ x xs, buildLayersAux H f (combine H l) = x :: xs := by
          cases hcase : buildLayersAux H f (combine H l) with
          | nil => exact absurd hcase (buildLayersAux_ne_nil H f _)
          | cons x xs => exact ⟨x, xs, rfl⟩
        rw [hx, List.getLast?_cons_cons, ← hx, htop]
      · rw [if_neg hlen]
        exact ⟨l, rfl, by omega⟩

/-- Elementwise description of a combining pass: node `k` of the new layer is
the pair of nodes `2k` and `2k + 1` of the old layer, the right one falling
back to the left when out of range. -/
theorem combine_get? (H : Nat → Nat → Nat) :
    ∀ (l : List Node) (k : Nat) (x : Node), (combine H l).get? k = some x →
      ∃ ln, l.get? (2 * k) = some ln ∧
        x = Node.inner (H ln.hashVal (((l.get? (2 * k + 1)).getD ln).hashVal))
          ln ((l.get? (2 * k + 1)).getD ln)
  | [], k, x => by intro h; simp [combine] at h
  | [lone], k, x => by
      intro h
      cases k with
      | zero =>
          simp only [combine, List.get?] at h ⊢
          cases h
          exact ⟨lone, rfl, rfl⟩
      | succ k => simp [combine, List.get?] at h
  | a :: b :: rest, k, x => by
      intro h
      cases k with
      | zero =>
          simp only [combine, List.get?] at h ⊢
          cases h
          exact ⟨a, rfl, rfl⟩
      | succ k =>
          simp only [combine, List.get?_cons_succ] at h
          obtain ⟨ln, hln, hx⟩ := combine_get? H rest k x h
          have e1 : 2 * (k + 1) = 2 * k + 1 + 1 := by omega
          rw [e1]
          simp only [List.get?_cons_succ]
          exact ⟨ln, hln, hx⟩

/-- C3: in a built tree, every layer above the leaves pairs adjacent nodes of
the previous layer left to right — node `k` combines nodes `2k` and `2k + 1`,
and when `2k + 1` is out of range (odd layer) the last node is combined with
itself, duplicated rather than dropped. In particular a tree over exactly
three leaves has root `Hash([Hash([leaf0, leaf1]), Hash([leaf2, leaf2])])`. -/
theorem c3_layer_pairing :
    (∀ (H : Nat → Nat → Nat) (entries : List (String × Nat)) (i : Nat)
        (la lb : List Node),
        (buildTree H entries).get? i = some la →
        (buildTree H entries).get? (i + 1) = some lb →
        ∀ (k : Nat) (x : Node), lb.get? k = some x →
          ∃ ln, la.get? (2 * k) = some ln ∧
            x = Node.inner (H ln.hashVal (((la.get? (2 * k + 1)).getD ln).hashVal))
              ln ((la.get? (2 * k + 1)).getD ln)) ∧
    (∀ (H : Nat → Nat → Nat) (e0 e1 e2 : String × Nat),
        getRoot (buildTree H [e0, e1, e2]) =
          some (H (H (hashLeaf H e0.1 e0.2) (hashLeaf H e1.1 e1.2))
            (H (hashLeaf H e2.1 e2.2) (hashLeaf H e2.1 e2.2)))) := by
  constructor
  · intro H entries i la lb h1 h2 k x hx
    have hcomb := buildLayersAux_succ H _ _ i la lb h1 h2
    exact combine_get? H la k x (hcomb ▸ hx)
  · intro H e0 e1 e2
    rfl

/-- The first leaf node of the concrete two-entry tree. -/
def egLeaf1 : Node := Node.leaf (hashLeaf Nat.pair "1" 5000) "1" 5000

/-- The second leaf node of the concrete two-entry tree. -/
def egLeaf2 : Node := Node.leaf (hashLeaf Nat.pair "2" 3000) "2" 3000

/-- The root node of the concrete two-entry tree. -/
def egInner : Node :=
  Node.inner (Nat.pair (hashLeaf Nat.pair "1" 5000) (hashLeaf Nat.pair "2" 3000))
    egLeaf1 egLeaf2

/-- C3 witness: the pairing law applied to the concrete two-entry tree. -/
theorem c3_witness :
    (egLayers.get? 0 = some [egLeaf1, egLeaf2] ∧
      egLayers.get? 1 = some [egInner] ∧
      [egInner].get? 0 = some egInner) ∧
    (∃ ln, [egLeaf1, egLeaf2].get? (2 * 0) = some ln ∧
      egInner =
        Node.inner (Nat.pair ln.hashVal
            ((([egLeaf1, egLeaf2].get? (2 * 0 + 1)).getD ln).hashVal))
          ln (([egLeaf1, egLeaf2].get? (2 * 0 + 1)).getD ln)) :=
  ⟨⟨by decide, by decide, by decide⟩,
    c3_layer_pairing.1 Nat.pair egEntries 0 [egLeaf1, egLeaf2] [egInner]
      (by decide) (by decide) 0 egInner (by decide)⟩

/-- C7: for a nonempty entry list, each built layer's length is the ceiling
of half its predecessor's length (`ceil(n / 2) = (n + 1) / 2`), and the last
layer has exactly one node. -/
theorem c7_layer_lengths (H : Nat → Nat → Nat) (entries : List (String × Nat))
    (hne : entries ≠ []) :
    (∀ (i : Nat) (la lb : List Node),
        (buildTree H entries).get? i = some la →
        (buildTree H entries).get? (i + 1) = some lb →
        lb.length = (la.length + 1) / 2) ∧
    (∃ top, (buildTree H entries).getLast? = some top ∧ top.length = 1) := by
  constructor
  · intro i la lb h1 h2
    rw [buildLayersAux_succ H _ _ i la lb h1 h2, combine_length]
  · have hlen : 1 ≤ (leafLayer H entries).length := by
      simp only [leafLayer, List.length_map]
      cases entries with
      | nil => exact absurd rfl hne
      | cons e es => simp
    exact buildLayersAux_last H _ _ hlen (by omega)

/-- C7 witness: the layer-length law applied to the concrete two-entry
tree. -/
theorem c7_witness :
    egEntries ≠ [] ∧
      (∃ top, (buildTree Nat.pair egEntries).getLast? = some top ∧ top.length = 1) :=
  ⟨by decide, (c7_layer_lengths Nat.pair egEntries (by decide)).2⟩

/-- The loop body records exactly the sibling the specification describes. -/
theorem siblingAt_eq_specSibling {α : Type} (V : NodeView α) (layer : List α) (i : Nat) :
    siblingAt V layer i = specSibling V layer i := by
  by_cases h : i % 2 = 0
  · cases hx : layer[(i + 1)]? <;> simp [siblingAt, specSibling, h, hx]
  · cases hx : layer[(i - 1)]? <;> simp [siblingAt, specSibling, h, hx]

/-- The proof loop over a list of layers, in closed form: the element
contributed by layer `k` is the specification sibling at index
`i / 2 ^ k` (the index after `k` halvings), skipped when out of range. -/
theorem pathAux_eq {α : Type} (V : NodeView α) :
    ∀ (ls : List (List α)) (i : Nat),
      pathAux V ls i =
        (List.range ls.length).filterMap
          (fun k => (ls.get? k).bind fun layer => specSibling V layer (i / 2 ^ k)) := by
  intro ls
  induction ls with
  | nil => intro i; rfl
  | cons layer rest ih =>
      intro i
      rw [List.length_cons, List.range_succ_eq_map, List.filterMap_cons, List.filterMap_map]
      have h0 : ((layer :: rest).get? 0).bind
          (fun la => specSibling V la (i / 2 ^ 0)) = specSibling V layer i := by
        simp
      have hsucc : ∀ k : Nat,
          (((layer :: rest).get? (Nat.succ k)).bind
            (fun la => specSibling V la (i / 2 ^ Nat.succ k))) =
          ((rest.get? k).bind (fun la => specSibling V la (i / 2 / 2 ^ k))) := by
        intro k
        rw [List.get?_cons_succ]
        congr 1
        funext la
        rw [Nat.div_div_eq_div_mul, pow_succ, Nat.mul_comm (2 ^ k) 2]
      rw [h0]
      have hcongr : (List.range rest.length).filterMap
            ((fun k => ((layer :: rest).get? k).bind
              fun la => specSibling V la (i / 2 ^ k)) ∘ Nat.succ) =
          (List.range rest.length).filterMap
            (fun k => (rest.get? k).bind fun la => specSibling V la (i / 2 / 2 ^ k)) :=
        List.filterMap_congr (fun k _ => hsucc k)
      rw [hcongr, ← ih (i / 2)]
      simp only [pathAux, siblingAt_eq_specSibling]
      cases specSibling V layer i <;> rfl

/-- C6: the extracted sibling path, characterized layer by layer. Walking
layers `0 .. layers.length - 2` with the index halved after every layer
(`i / 2 ^ k` at layer `k`), each layer contributes the adjacent sibling —
index `j + 1` marked "right" when the current index `j` is even, `j - 1`
marked "left" when odd — and contributes nothing when that sibling index is
out of range (the odd-duplication case). -/
theorem c6_path_structure {α : Type} (V : NodeView α) (layers : List (List α)) (i : Nat) :
    getProofPath V layers i =
      (List.range (layers.length - 1)).filterMap
        (fun k => (layers.get? k).bind fun layer => specSibling V layer (i / 2 ^ k)) := by
  rw [getProofPath, pathAux_eq, List.length_dropLast]
  refine List.filterMap_congr fun k hk => ?_
  rw [List.mem_range] at hk
  rw [List.dropLast_eq_take, List.get?_take hk]

/-- The leaf layer of a built tree is the first layer. -/
theorem buildTree_eq_cons (H : Nat → Nat → Nat) (entries : List (String × Nat)) :
    ∃ rest, buildTree H entries = leafLayer H entries :: rest := by
  have hh := buildLayersAux_head H (leafLayer H entries).length (leafLayer H entries)
  cases hcase : buildLayersAux H (leafLayer H entries).length (leafLayer H entries) with
  | nil => rw [hcase] at hh; exact Option.noConfusion hh
  | cons x xs =>
      rw [hcase] at hh
      exact ⟨xs, by rw [buildTree, hcase, Option.some.inj hh]⟩

/-- C10: when an identifier occurs several times among the leaves,
`getProofFromStoredData` serves the occurrence at the smallest layer-0 index:
the returned proof embeds that first leaf's balance and hash and walks up from
its index, so later occurrences are unreachable through extraction. -/
theorem c10_first_match (H : Nat → Nat → Nat) (entries : List (String × Nat))
    (ts : Nat) (fr : Option Nat) (uid : String) (i : Nat) (hi : i < entries.length)
    (hu : (entries.get ⟨i, hi⟩).1 = uid)
    (hfirst : ∀ j (hj : j < i), (entries.get ⟨j, Nat.lt_trans hj hi⟩).1 ≠ uid) :
    getProofFromStoredData nodeView (buildTree H entries) ts fr uid =
      some { uid := uid
             balance := some (entries.get ⟨i, hi⟩).2
             leafHash := hashLeaf H (entries.get ⟨i, hi⟩).1 (entries.get ⟨i, hi⟩).2
             proof := getProofPath nodeView (buildTree H entries) i
             merkleRoot := getRoot (buildTree H entries)
             timestamp := ts
             finalRoot := fr } := by
  obtain ⟨rest, hrest⟩ := buildTree_eq_cons H entries
  have hilen : i < (leafLayer H entries).length := by
    simpa [leafLayer] using hi
  have hfind : (leafLayer H entries).findIdx?
      (fun n => nodeView.uidOf n == some uid) = some i := by
    rw [leafLayer, List.findIdx?_map]
    rw [List.findIdx?_eq_some_iff_getElem]
    refine ⟨hi, ?_, ?_⟩
    · have hu' : entries[i].1 = uid := by simpa [List.get_eq_getElem] using hu
      simp [Function.comp, nodeView, Node.uidVal, hu']
    · intro j hj
      have hj' : entries[j].1 ≠ uid := by
        simpa [List.get_eq_getElem] using hfirst j hj
      simp [Function.comp, nodeView, Node.uidVal, hj']
  have hget : (leafLayer H entries).get? i =
      some (Node.leaf (hashLeaf H (entries.get ⟨i, hi⟩).1 (entries.get ⟨i, hi⟩).2)
        (entries.get ⟨i, hi⟩).1 (entries.get ⟨i, hi⟩).2) := by
    rw [leafLayer, List.get?_map, List.get?_eq_get hi]
    rfl
  rw [hrest, getProofFromStoredData, hfind]
  simp only [hget, Option.map_some']
  rw [← hrest]
  simp [nodeView, Node.balVal, Node.hashVal, getRoot]

/-- A two-entry input in which the same identifier occurs twice with
different balances. -/
def dupEntries : List (String × Nat) := [("a", 1), ("a", 2)]

/-- C10 witness: on the duplicate-identifier input, extraction returns the
proof of the first occurrence. -/
theorem c10_witness :
    (dupEntries.get ⟨0, by decide⟩).1 = "a" ∧
    getProofFromStoredData nodeView (buildTree Nat.pair dupEntries) egTs none "a" =
      some { uid := "a"
             balance := some (dupEntries.get ⟨0, by decide⟩).2
             leafHash := hashLeaf Nat.pair (dupEntries.get ⟨0, by decide⟩).1
               (dupEntries.get ⟨0, by decide⟩).2
             proof := getProofPath nodeView (buildTree Nat.pair dupEntries) 0
             merkleRoot := getRoot (buildTree Nat.pair dupEntries)
             timestamp := egTs
             finalRoot := none } :=
  ⟨by decide,
    c10_first_match Nat.pair dupEntries egTs none "a" 0 (by decide) (by decide)
      (fun j hj => absurd hj (Nat.not_lt_zero j))⟩

/-- Mapping a projection over every layer commutes with `dropLast`. -/
theorem dropLast_map {γ δ : Type} (g : γ → δ) (l : List γ) :
    (l.map g).dropLast = l.dropLast.map g := by
  rw [List.dropLast_eq_take, List.dropLast_eq_take, List.length_map, List.map_take]

/-- The root accessor only reads node hashes, so it is stable under any
hash-preserving projection of the stored nodes. -/
theorem getRootG_map {α β : Type} (hashA : α → Nat) (hashB : β → Nat) (f : α → β)
    (hh : ∀ a, hashB (f a) = hashA a) (layers : List (List α)) :
    getRootG hashB (layers.map fun layer => layer.map f) = getRootG hashA layers := by
  rw [getRootG, getRootG, List.getLast?_map]
  cases layers.getLast? with
  | none => rfl
  | some top =>
      simp only [Option.map_some', List.get?_eq_getElem?, List.getElem?_map]
      cases hx : top[(0 : Nat)]? <;> simp [hx, hh]

/-- The recorded sibling only depends on accessor values, so it is stable
under accessor-preserving projections. -/
theorem siblingAt_map {α β : Type} (V : NodeView α) (W : NodeView β) (f : α → β)
    (hh : ∀ a, W.hashOf (f a) = V.hashOf a) (layer : List α) (i : Nat) :
    siblingAt W (layer.map f) i = siblingAt V layer i := by
  rw [siblingAt_eq_specSibling, siblingAt_eq_specSibling, specSibling, specSibling]
  by_cases h : i % 2 = 0
  · rw [if_pos h, if_pos h]
    cases hx : layer[(i + 1)]? <;> simp [List.get?_map, hx, hh]
  · rw [if_neg h, if_neg h]
    cases hx : layer[(i - 1)]? <;> simp [List.get?_map, hx, hh]

/-- The whole recorded path is stable under accessor-preserving
projections of the layers. -/
theorem pathAux_map {α β : Type} (V : NodeView α) (W : NodeView β) (f : α → β)
    (hh : ∀ a, W.hashOf (f a) = V.hashOf a) :
    ∀ (ls : List (List α)) (i : Nat),
      pathAux W (ls.map fun layer => layer.map f) i = pathAux V ls i := by
  intro ls
  induction ls with
  | nil => intro i; rfl
  | cons layer rest ih =>
      intro i
      simp only [List.map_cons, pathAux, siblingAt_map V W f hh, ih]

/-- Proof extraction reads nothing but the three accessor fields, so any
projection of the layers preserving them yields identical proofs. -/
theorem getProof_map {α β : Type} (V : NodeView α) (W : NodeView β) (f : α → β)
    (hh : ∀ a, W.hashOf (f a) = V.hashOf a)
    (hu : ∀ a, W.uidOf (f a) = V.uidOf a)
    (hb : ∀ a, W.balOf (f a) = V.balOf a)
    (layers : List (List α)) (ts : Nat) (fr : Option Nat) (uid : String) :
    getProofFromStoredData W (layers.map fun layer => layer.map f) ts fr uid =
      getProofFromStoredData V layers ts fr uid := by
  cases layers with
  | nil => rfl
  | cons layer0 rest =>
      simp only [List.map_cons, getProofFromStoredData]
      rw [List.findIdx?_map]
      have hp : ((fun n => W.uidOf n == some uid) ∘ f) =
          (fun a => V.uidOf a == some uid) := funext fun a => by
        simp [Function.comp, hu]
      rw [hp]
      cases hidx : layer0.findIdx? (fun a => V.uidOf a == some uid) with
      | none => rfl
      | some nodeIndex =>
          simp only [List.get?_map]
          cases hcur : layer0.get? nodeIndex with
          | none => rfl
          | some currentNode =>
              simp only [Option.map_some']
              have hpath : getProofPath W ((layer0 :: rest).map fun layer => layer.map f)
                  nodeIndex = getProofPath V (layer0 :: rest) nodeIndex := by
                rw [getProofPath, getProofPath, dropLast_map, pathAux_map V W f hh]
              have hroot : getRootG W.hashOf ((layer0 :: rest).map fun layer => layer.map f) =
                  getRootG V.hashOf (layer0 :: rest) := getRootG_map V.hashOf W.hashOf f hh _
              simp only [List.map_cons] at hpath hroot
              simp [hpath, hroot, hh, hu, hb]

/-- C5: serializing a built tree and deserializing the snapshot yields a tree
whose extracted proof for any present identifier is field-for-field identical
to the proof extracted from the original tree. (The snapshot keeps every
node's hash, identifier and balance and the tree's timestamp and final root,
which is everything extraction reads.) -/
theorem c5_round_trip (H : Nat → Nat → Nat) (entries : List (String × Nat))
    (ts : Nat) (fr : Option Nat) (uid : String)
    (hpresent : uid ∈ entries.map Prod.fst) :
    getProofFromStoredData storedView
        (initFromJSON (exportToJSON entries (buildTree H entries) ts fr)).layers
        (initFromJSON (exportToJSON entries (buildTree H entries) ts fr)).timestamp
        (initFromJSON (exportToJSON entries (buildTree H entries) ts fr)).finalRoot uid =
      getProofFromStoredData nodeView (buildTree H entries) ts fr uid :=
  getProof_map nodeView storedView storeNode
    (fun a => rfl) (fun a => rfl) (fun a => rfl) (buildTree H entries) ts fr uid

/-- C5 witness: the round trip on the concrete two-entry tree and a present
identifier. -/
theorem c5_witness :
    "1" ∈ egEntries.map Prod.fst ∧
    getProofFromStoredData storedView
        (initFromJSON (exportToJSON egEntries egLayers egTs egFinalRoot)).layers
        (initFromJSON (exportToJSON egEntries egLayers egTs egFinalRoot)).timestamp
        (initFromJSON (exportToJSON egEntries egLayers egTs egFinalRoot)).finalRoot "1" =
      getProofFromStoredData nodeView egLayers egTs egFinalRoot "1" :=
  ⟨by decide, c5_round_trip Nat.pair egEntries egTs egFinalRoot "1" (by decide)⟩

/-! The identifier encoding (claim C9).  `Buffer.from(uid, 'utf8')` is
modelled by Lean's own UTF-8 encoder `String.toUTF8`; the following lemmas
restate the encoder byte by byte over `Nat` and settle injectivity of the
big-endian packing. -/

/-- Bitwise-or of bytes, through `toNat`. -/
theorem or_toNat8 (a b : UInt8) : (a ||| b).toNat = a.toNat ||| b.toNat := BitVec.toNat_or ..

/-- A logical right shift of a 32-bit word divides its value by the
corresponding power of two (shift amounts are taken modulo 32). -/
theorem shr_toNat32 (v m : UInt32) : (v >>> m).toNat = v.toNat / 2 ^ (m.toNat % 32) := by
  show (v.toBitVec >>> ((m.mod 32).toBitVec).toNat).toNat = _
  have h32 : ((m.mod 32).toBitVec).toNat = m.toNat % 32 := by
    show (m.toBitVec % (32 : UInt32).toBitVec).toNat = m.toNat % 32
    rw [BitVec.toNat_umod]
    rfl
  rw [h32, BitVec.toNat_ushiftRight, Nat.shiftRight_eq_div_pow]
  rfl

/-- Truncating a 32-bit word to a byte reduces its value modulo 256. -/
theorem toUInt8_toNat (v : UInt32) : v.toUInt8.toNat = v.toNat % 256 := by
  show ((UInt8.ofNat v.toNat)).toNat = _
  simp [UInt8.ofNat, UInt8.toNat, BitVec.toNat_ofNat]

/-- Masking a byte-sized value with `0x3f` reduces it modulo 64. -/
theorem and63 : ∀ x < 256, x &&& 63 = x % 64 := by decide

/-- Masking a byte-sized value with `0x1f` reduces it modulo 32. -/
theorem and31 : ∀ x < 256, x &&& 31 = x % 32 := by decide

/-- Masking a byte-sized value with `0x0f` reduces it modulo 16. -/
theorem and15 : ∀ x < 256, x &&& 15 = x % 16 := by decide

/-- Masking a byte-sized value with `0x07` reduces it modulo 8. -/
theorem and7 : ∀ x < 256, x &&& 7 = x % 8 := by decide

/-- Setting the UTF-8 continuation tag on a 6-bit value is an addition. -/
theorem or128 : ∀ x < 64, x ||| 128 = 128 + x := by decide

/-- Setting the 2-byte lead tag on a 5-bit value is an addition. -/
theorem or192 : ∀ x < 32, x ||| 192 = 192 + x := by decide

/-- Setting the 3-byte lead tag on a 4-bit value is an addition. -/
theorem or224 : ∀ x < 16, x ||| 224 = 224 + x := by decide

/-- Setting the 4-byte lead tag on a 3-bit value is an addition. -/
theorem or240 : ∀ x < 8, x ||| 240 = 240 + x := by decide

/-- Two characters with the same code point are equal. -/
theorem char_eq_of_toNat {a b : Char} (h : a.val.toNat = b.val.toNat) : a = b :=
  Char.ext (UInt32.toNat.inj h)

/-- Every character code point is below `0x110000`. -/
theorem charVal_lt (c : Char) : c.val.toNat < 1114112 := by
  rcases c.valid with h | ⟨_, h2⟩
  · omega
  · omega

/-- The UTF-8 encoding of one code point, restated over `Nat`. -/
def natEncodeChar (v : Nat) : List Nat :=
  if v ≤ 0x7f then [v]
  else if v ≤ 0x7ff then [192 + v / 64, 128 + v % 64]
  else if v ≤ 0xffff then [224 + v / 4096, 128 + v / 64 % 64, 128 + v % 64]
  else [240 + v / 262144, 128 + v / 4096 % 64, 128 + v / 64 % 64, 128 + v % 64]

/-- Comparison of a 32-bit word against a small literal, through `toNat`. -/
theorem ule_iff (v : UInt32) (n : Nat) (hn : n < 4294967296) :
    v ≤ UInt32.ofNat n ↔ v.toNat ≤ n := by
  show v.toBitVec ≤ (UInt32.ofNat n).toBitVec ↔ _
  rw [BitVec.le_def]
  show v.toNat ≤ (BitVec.ofNat 32 n).toNat ↔ _
  rw [BitVec.toNat_ofNat, Nat.mod_eq_of_lt hn]

/-- Byte literals, through `toNat`. -/
theorem u8_7 : (7 : UInt8).toNat = 7 := rfl

/-- Byte literals, through `toNat`. -/
theorem u8_15 : (15 : UInt8).toNat = 15 := rfl

/-- Byte literals, through `toNat`. -/
theorem u8_31 : (31 : UInt8).toNat = 31 := rfl

/-- Byte literals, through `toNat`. -/
theorem u8_63 : (63 : UInt8).toNat = 63 := rfl

/-- Byte literals, through `toNat`. -/
theorem u8_128 : (128 : UInt8).toNat = 128 := rfl

/-- Byte literals, through `toNat`. -/
theorem u8_192 : (192 : UInt8).toNat = 192 := rfl

/-- Byte literals, through `toNat`. -/
theorem u8_224 : (224 : UInt8).toNat = 224 := rfl

/-- Byte literals, through `toNat`. -/
theorem u8_240 : (240 : UInt8).toNat = 240 := rfl

/-- Word literals, through `toNat`. -/
theorem u32_6 : (6 : UInt32).toNat = 6 := rfl

/-- Word literals, through `toNat`. -/
theorem u32_12 : (12 : UInt32).toNat = 12 := rfl

/-- Word literals, through `toNat`. -/
theorem u32_18 : (18 : UInt32).toNat = 18 := rfl

/-- A UTF-8 continuation byte, over `Nat`. -/
theorem contByte (x : Nat) : x % 256 &&& 63 ||| 128 = 128 + x % 64 := by
  have h1 : x % 256 < 256 := Nat.mod_lt _ (by norm_num)
  rw [and63 (x % 256) h1]
  have h2 : x % 256 % 64 = x % 64 := by omega
  rw [h2, or128 (x % 64) (Nat.mod_lt _ (by norm_num))]

/-- A 2-byte UTF-8 lead byte, over `Nat`. -/
theorem lead2Byte (x : Nat) (h : x < 32) : x % 256 &&& 31 ||| 192 = 192 + x := by
  have h1 : x % 256 = x := Nat.mod_eq_of_lt (by omega)
  rw [h1, and31 x (by omega)]
  have h2 : x % 32 = x := Nat.mod_eq_of_lt h
  rw [h2, or192 x h]

/-- A 3-byte UTF-8 lead byte, over `Nat`. -/
theorem lead3Byte (x : Nat) (h : x < 16) : x % 256 &&& 15 ||| 224 = 224 + x := by
  have h1 : x % 256 = x := Nat.mod_eq_of_lt (by omega)
  rw [h1, and15 x (by omega)]
  have h2 : x % 16 = x := Nat.mod_eq_of_lt h
  rw [h2, or224 x h]

/-- A 4-byte UTF-8 lead byte, over `Nat`. -/
theorem lead4Byte (x : Nat) (h : x < 8) : x % 256 &&& 7 ||| 240 = 240 + x := by
  have h1 : x % 256 = x := Nat.mod_eq_of_lt (by omega)
  rw [h1, and7 x (by omega)]
  have h2 : x % 8 = x := Nat.mod_eq_of_lt h
  rw [h2, or240 x h]

/-- Core's `String.utf8EncodeChar`, byte by byte over `Nat`. -/
theorem utf8EncodeChar_toNat (c : Char) :
    (String.utf8EncodeChar c).map (fun b => b.toNat) = natEncodeChar c.val.toNat := by
  have hlt := charVal_lt c
  rw [String.utf8EncodeChar, natEncodeChar]
  by_cases hc1 : c.val.toNat ≤ 127
  · have hu1 : c.val ≤ (127 : UInt32) := (ule_iff c.val 127 (by omega)).mpr hc1
    rw [if_pos hu1, if_pos hc1]
    simp only [List.map_cons, List.map_nil, toUInt8_toNat]
    rw [Nat.mod_eq_of_lt (by omega)]
  · have hu1 : ¬c.val ≤ (127 : UInt32) := fun h => hc1 ((ule_iff c.val 127 (by omega)).mp h)
    rw [if_neg hu1, if_neg hc1]
    by_cases hc2 : c.val.toNat ≤ 2047
    · have hu2 : c.val ≤ (2047 : UInt32) := (ule_iff c.val 2047 (by omega)).mpr hc2
      rw [if_pos hu2, if_pos hc2]
      simp only [List.map_cons, List.map_nil, or_toNat8, UInt8.and_toNat, toUInt8_toNat,
        shr_toNat32, u8_31, u8_63, u8_128, u8_192, u32_6]
      have p6 : (2 : Nat) ^ (6 % 32) = 64 := by norm_num
      rw [p6, lead2Byte (c.val.toNat / 64) (by omega), contByte c.val.toNat]
    · have hu2 : ¬c.val ≤ (2047 : UInt32) := fun h => hc2 ((ule_iff c.val 2047 (by omega)).mp h)
      rw [if_neg hu2, if_neg hc2]
      by_cases hc3 : c.val.toNat ≤ 65535
      · have hu3 : c.val ≤ (65535 : UInt32) := (ule_iff c.val 65535 (by omega)).mpr hc3
        rw [if_pos hu3, if_pos hc3]
        simp only [List.map_cons, List.map_nil, or_toNat8, UInt8.and_toNat, toUInt8_toNat,
          shr_toNat32, u8_15, u8_63, u8_128, u8_224, u32_6, u32_12]
        have p6 : (2 : Nat) ^ (6 % 32) = 64 := by norm_num
        have p12 : (2 : Nat) ^ (12 % 32) = 4096 := by norm_num
        rw [p6, p12, lead3Byte (c.val.toNat / 4096) (by omega), contByte (c.val.toNat / 64),
          contByte c.val.toNat]
      · have hu3 : ¬c.val ≤ (65535 : UInt32) := fun h => hc3 ((ule_iff c.val 65535 (by omega)).mp h)
        rw [if_neg hu3, if_neg hc3]
        simp only [List.map_cons, List.map_nil, or_toNat8, UInt8.and_toNat, toUInt8_toNat,
          shr_toNat32, u8_7, u8_63, u8_128, u8_240, u32_6, u32_12, u32_18]
        have p6 : (2 : Nat) ^ (6 % 32) = 64 := by norm_num
        have p12 : (2 : Nat) ^ (12 % 32) = 4096 := by norm_num
        have p18 : (2 : Nat) ^ (18 % 32) = 262144 := by norm_num
        rw [p6, p12, p18, lead4Byte (c.val.toNat / 262144) (by omega),
          contByte (c.val.toNat / 4096), contByte (c.val.toNat / 64), contByte c.val.toNat]

/-- The UTF-8 bytes of one character, over `Nat`. -/
def natEncC (c : Char) : List Nat := natEncodeChar c.val.toNat

/-- Every character encodes to at least one byte. -/
theorem natEncC_ne_nil (c : Char) : natEncC c ≠ [] := by
  rw [natEncC, natEncodeChar]
  split_ifs <;> simp

/-- UTF-8 is a prefix code over `Nat`: equal concatenations starting with two
encoded code points force the code points and the tails to agree. -/
theorem natEncodeChar_append_inj (v1 v2 : Nat) (h1 : v1 < 1114112) (h2 : v2 < 1114112)
    (t1 t2 : List Nat) (heq : natEncodeChar v1 ++ t1 = natEncodeChar v2 ++ t2) :
    v1 = v2 ∧ t1 = t2 := by
  rw [natEncodeChar, natEncodeChar] at heq
  split_ifs at heq <;>
    simp only [List.cons_append, List.nil_append, List.cons.injEq] at heq <;>
    first
      | (obtain ⟨e0, e1, e2, e3, et⟩ := heq; exact ⟨by omega, et⟩)
      | (obtain ⟨e0, e1, e2, et⟩ := heq; exact ⟨by omega, et⟩)
      | (obtain ⟨e0, e1, et⟩ := heq; exact ⟨by omega, et⟩)
      | (obtain ⟨e0, et⟩ := heq; exact ⟨by omega, et⟩)
      | (exact absurd heq.1 (by omega))

/-- Prefix-code property, at the level of characters. -/
theorem natEncC_append_inj (c1 c2 : Char) (t1 t2 : List Nat)
    (heq : natEncC c1 ++ t1 = natEncC c2 ++ t2) : c1 = c2 ∧ t1 = t2 := by
  obtain ⟨hv, ht⟩ :=
    natEncodeChar_append_inj _ _ (charVal_lt c1) (charVal_lt c2) t1 t2 heq
  exact ⟨char_eq_of_toNat hv, ht⟩

/-- UTF-8 encoding of whole character sequences is injective. -/
theorem flatMap_natEncC_inj : ∀ cs1 cs2 : List Char,
    cs1.flatMap natEncC = cs2.flatMap natEncC → cs1 = cs2
  | [], [], _ => rfl
  | [], c :: cs, h => by
      exfalso
      rw [List.flatMap_cons] at h
      rcases List.append_eq_nil.mp h.symm with ⟨hc, _⟩
      exact natEncC_ne_nil c hc
  | c :: cs, [], h => by
      exfalso
      rw [List.flatMap_cons] at h
      rcases List.append_eq_nil.mp h with ⟨hc, _⟩
      exact natEncC_ne_nil c hc
  | c1 :: cs1, c2 :: cs2, h => by
      rw [List.flatMap_cons, List.flatMap_cons] at h
      obtain ⟨hc, ht⟩ := natEncC_append_inj c1 c2 _ _ h
      rw [hc, flatMap_natEncC_inj cs1 cs2 ht]

/-- The byte sequence the packing consumes is the per-character UTF-8
encoding, concatenated. -/
theorem uidBytes_eq_flatMap (s : String) : uidBytes s = s.data.flatMap natEncC := by
  show (s.data.flatMap String.utf8EncodeChar).map (fun b => b.toNat) = _
  rw [List.map_flatMap]
  have hfn : (fun c => (String.utf8EncodeChar c).map (fun b => b.toNat)) = natEncC :=
    funext fun c => utf8EncodeChar_toNat c
  rw [hfn]

/-- Only the NUL character encodes to a leading zero byte. -/
theorem natEncC_head_ne_zero (c : Char) (hc : c ≠ '\x00') :
    ∀ b, (natEncC c).head? = some b → b ≠ 0 := by
  intro b hb
  have hlt := charVal_lt c
  rw [natEncC, natEncodeChar] at hb
  split_ifs at hb with h1 h2 h3 <;> simp only [List.head?_cons, Option.some.injEq] at hb
  · intro hb0
    apply hc
    apply char_eq_of_toNat
    have hz : ('\x00').val.toNat = 0 := rfl
    omega
  · omega
  · omega
  · omega

/-- A string that does not start with NUL produces a nonzero leading byte. -/
theorem bytes_head_ne_zero (cs : List Char) (h : cs.head? ≠ some '\x00') :
    ∀ b, (cs.flatMap natEncC).head? = some b → b ≠ 0 := by
  cases cs with
  | nil => intro b hb; simp at hb
  | cons c cs' =>
      intro b hb
      rw [List.flatMap_cons] at hb
      have hcne : c ≠ '\x00' := fun hcc => h (by rw [List.head?_cons, hcc])
      apply natEncC_head_ne_zero c hcne b
      cases hx : natEncC c with
      | nil => exact absurd hx (natEncC_ne_nil c)
      | cons b0 bs =>
          rw [hx, List.cons_append, List.head?_cons] at hb
          rw [List.head?_cons]
          exact hb

/-- Every encoded byte fits in one octet. -/
theorem natEncC_lt (c : Char) : ∀ b ∈ natEncC c, b < 256 := by
  intro b hb
  have hlt := charVal_lt c
  rw [natEncC, natEncodeChar] at hb
  split_ifs at hb with h1 h2 h3
  · simp at hb; omega
  · simp at hb; rcases hb with rfl | rfl <;> omega
  · simp at hb; rcases hb with rfl | rfl | rfl <;> omega
  · simp at hb; rcases hb with rfl | rfl | rfl | rfl <;> omega

/-- Every byte of an encoded string fits in one octet. -/
theorem flatMap_lt (cs : List Char) : ∀ b ∈ cs.flatMap natEncC, b < 256 := by
  intro b hb
  rw [List.mem_flatMap] at hb
  obtain ⟨c, _, hbc⟩ := hb
  exact natEncC_lt c b hbc

/-- Folding the packing loop from an arbitrary accumulator. -/
theorem foldl_pack : ∀ (l : List Nat) (n : Nat),
    l.foldl (fun a b => a * 256 + b) n =
      n * 256 ^ l.length + l.foldl (fun a b => a * 256 + b) 0
  | [], n => by simp
  | b :: l, n => by
      rw [List.foldl_cons, List.foldl_cons, foldl_pack l (n * 256 + b),
        foldl_pack l (0 * 256 + b), List.length_cons, pow_succ]
      ring

/-- Peeling the leading byte off the packed value. -/
theorem packBytes_cons (b : Nat) (l : List Nat) :
    packBytes (b :: l) = b * 256 ^ l.length + packBytes l := by
  rw [packBytes, List.foldl_cons, foldl_pack l (0 * 256 + b), packBytes]
  ring

/-- The packed value of octets is bounded by `256 ^ length`. -/
theorem packBytes_lt : ∀ l : List Nat, (∀ b ∈ l, b < 256) →
    packBytes l < 256 ^ l.length
  | [], _ => by simp [packBytes]
  | b :: l, hb => by
      rw [packBytes_cons, List.length_cons, pow_succ]
      have h1 : packBytes l < 256 ^ l.length :=
        packBytes_lt l (fun x hx => hb x (List.mem_cons_of_mem _ hx))
      have h2 : b < 256 := hb b (List.mem_cons_self _ _)
      calc b * 256 ^ l.length + packBytes l
          < b * 256 ^ l.length + 256 ^ l.length := by omega
        _ = (b + 1) * 256 ^ l.length := by ring
        _ ≤ 256 * 256 ^ l.length := Nat.mul_le_mul_right _ (by omega)
        _ = 256 ^ l.length * 256 := by ring

/-- A nonzero leading byte pins the packed value above `256 ^ (length - 1)`. -/
theorem packBytes_ge (b : Nat) (l : List Nat) (hb : b ≠ 0) :
    256 ^ l.length ≤ packBytes (b :: l) := by
  rw [packBytes_cons]
  have h1 : 256 ^ l.length ≤ b * 256 ^ l.length := by
    conv_lhs => rw [← Nat.one_mul (256 ^ l.length)]
    exact Nat.mul_le_mul_right _ (by omega)
  exact le_trans h1 (Nat.le_add_right _ _)

/-- Base-256 positional uniqueness for octet sequences of equal length. -/
theorem packBytes_inj_len : ∀ (l1 l2 : List Nat), l1.length = l2.length →
    (∀ b ∈ l1, b < 256) → (∀ b ∈ l2, b < 256) →
    packBytes l1 = packBytes l2 → l1 = l2
  | [], [], _, _, _, _ => rfl
  | [], _ :: _, h, _, _, _ => by simp at h
  | _ :: _, [], h, _, _, _ => by simp at h
  | b1 :: l1, b2 :: l2, hlen, hb1, hb2, heq => by
      rw [packBytes_cons, packBytes_cons] at heq
      have hlen' : l1.length = l2.length := by simpa using hlen
      rw [← hlen'] at heq
      have hp1 : packBytes l1 < 256 ^ l1.length :=
        packBytes_lt l1 (fun x hx => hb1 x (List.mem_cons_of_mem _ hx))
      have hp2 : packBytes l2 < 256 ^ l1.length :=
        hlen' ▸ packBytes_lt l2 (fun x hx => hb2 x (List.mem_cons_of_mem _ hx))
      have hpos : 0 < 256 ^ l1.length := pow_pos (by norm_num) _
      have d1 : (b1 * 256 ^ l1.length + packBytes l1) / 256 ^ l1.length = b1 := by
        rw [Nat.mul_comm, Nat.mul_add_div hpos, Nat.div_eq_of_lt hp1, Nat.add_zero]
      have d2 : (b2 * 256 ^ l1.length + packBytes l2) / 256 ^ l1.length = b2 := by
        rw [Nat.mul_comm, Nat.mul_add_div hpos, Nat.div_eq_of_lt hp2, Nat.add_zero]
      rw [heq] at d1
      have hb : b1 = b2 := d1.symm.trans d2
      subst hb
      have hpeq : packBytes l1 = packBytes l2 := by omega
      rw [packBytes_inj_len l1 l2 hlen'
        (fun x hx => hb1 x (List.mem_cons_of_mem _ hx))
        (fun x hx => hb2 x (List.mem_cons_of_mem _ hx)) hpeq]

/-- A strictly shorter octet sequence packs to a strictly smaller value than
any sequence with a nonzero leading byte. -/
theorem packBytes_lt_of_shorter (l1 l2 : List Nat) (hb1 : ∀ b ∈ l1, b < 256)
    (hz2 : ∀ b, l2.head? = some b → b ≠ 0) (hlt : l1.length < l2.length) :
    packBytes l1 < packBytes l2 := by
  cases l2 with
  | nil => simp at hlt
  | cons b2 t2 =>
      have h1 : packBytes l1 < 256 ^ l1.length := packBytes_lt l1 hb1
      have h2 : 256 ^ t2.length ≤ packBytes (b2 :: t2) :=
        packBytes_ge b2 t2 (hz2 b2 (by rw [List.head?_cons]))
      have hlen : l1.length ≤ t2.length := by
        rw [List.length_cons] at hlt
        omega
      have hpow : 256 ^ l1.length ≤ 256 ^ t2.length :=
        Nat.pow_le_pow_right (by norm_num) hlen
      omega

/-- The big-endian packing is injective on octet sequences with no leading
zero byte. -/
theorem packBytes_inj (l1 l2 : List Nat)
    (hb1 : ∀ b ∈ l1, b < 256) (hb2 : ∀ b ∈ l2, b < 256)
    (hz1 : ∀ b, l1.head? = some b → b ≠ 0) (hz2 : ∀ b, l2.head? = some b → b ≠ 0)
    (hne : l1 ≠ l2) : packBytes l1 ≠ packBytes l2 := by
  intro heq
  rcases Nat.lt_trichotomy l1.length l2.length with hlt | heqlen | hgt
  · exact absurd heq (Nat.ne_of_lt (packBytes_lt_of_shorter l1 l2 hb1 hz2 hlt))
  · exact hne (packBytes_inj_len l1 l2 heqlen hb1 hb2 heq)
  · exact absurd heq.symm (Nat.ne_of_lt (packBytes_lt_of_shorter l2 l1 hb2 hz1 hgt))

/-- C9, counterexample: the empty identifier and the one-character NUL
identifier are distinct strings, yet the big-endian byte packing sends both
to the integer `0` — the encoding is not injective on all strings. -/
theorem c9_counterexample :
    ("" : String) ≠ "\x00" ∧ uidToFieldElement "" = uidToFieldElement "\x00" := by
  constructor
  · decide
  · rw [uidToFieldElement, uidToFieldElement, uidBytes_eq_flatMap, uidBytes_eq_flatMap]
    decide

/-- C9, amended: the packing performed by `uidToFieldElement` (and inlined in
`hashLeaf`) is injective on identifiers that do not begin with the NUL
character: leading `0x00` bytes are the only information the big-endian
integer forgets. -/
theorem c9_injective_no_leading_nul (s1 s2 : String) (hne : s1 ≠ s2)
    (h1 : s1.data.head? ≠ some '\x00') (h2 : s2.data.head? ≠ some '\x00') :
    uidToFieldElement s1 ≠ uidToFieldElement s2 := by
  rw [uidToFieldElement, uidToFieldElement, uidBytes_eq_flatMap, uidBytes_eq_flatMap]
  apply packBytes_inj
  · exact flatMap_lt s1.data
  · exact flatMap_lt s2.data
  · exact bytes_head_ne_zero s1.data h1
  · exact bytes_head_ne_zero s2.data h2
  · intro hbv
    exact hne (String.ext (flatMap_natEncC_inj _ _ hbv))

/-- C9 witness: two concrete distinct identifiers, neither starting with
NUL, map to distinct integers. -/
theorem c9_witness :
    (("UID_1" : String) ≠ "UID_2" ∧
      ("UID_1" : String).data.head? ≠ some '\x00' ∧
      ("UID_2" : String).data.head? ≠ some '\x00') ∧
    uidToFieldElement "UID_1" ≠ uidToFieldElement "UID_2" :=
  ⟨⟨by decide, by decide, by decide⟩,
    c9_injective_no_leading_nul "UID_1" "UID_2" (by decide) (by decide) (by decide)⟩

end ZkpMerkle
